import Mathlib

/-!
Verification of the BOM transform pipeline (`bom_transform.py`).

Strings are modelled as `List Char`; a pandas cell is a tagged variant
(`Cell`): missing (NaN), a string, or an integer.  Each definition below is a
shallow embedding of the correspondingly named Python function or code block
of `bom_transform.py`; definitions whose name starts with `claimed_` or
`spec_` instead transcribe the specification's wording, for comparison with
the code-derived definition.
-/

namespace BomTransform

/-- Strings are lists of characters. -/
abbrev Str := List Char

/-- Characters of a Lean string literal (used only to write concrete inputs). -/
def chars (s : String) : Str := s.data

/-- Python `\s` whitespace classes relevant here: space, tab, newline,
carriage return, vertical tab, form feed. -/
def isWs (c : Char) : Bool :=
  c == ' ' || c == '\t' || c == '\n' || c == '\r' ||
    c == (Char.ofNat 11) || c == (Char.ofNat 12)

/-- Python `str.strip()`: drop whitespace from both ends. -/
def strip (s : Str) : Str :=
  ((s.dropWhile isWs).reverse.dropWhile isWs).reverse

/-- `normalize_for_match` (bom_transform.py:182-184):
`re.sub(r"\s+", "", s or "").upper()` — remove all whitespace, then
uppercase. -/
def normalize_for_match (s : Str) : Str :=
  (s.filter (fun c => !isWs c)).map Char.toUpper

/-- `leadEq needle hay` : `needle` is an initial segment of `hay`. -/
def leadEq : Str → Str → Bool
  | [], _ => true
  | _ :: _, [] => false
  | b :: bs, a :: as => b == a && leadEq bs as

/-- `occursIn needle hay` : Python `needle in hay` (contiguous substring). -/
def occursIn (needle : Str) : Str → Bool
  | [] => leadEq needle []
  | a :: t => leadEq needle (a :: t) || occursIn needle t

/-- One entry of `contains_list` (bom_transform.py:440-445): an empty
normalized value is treated as trivially contained. -/
def contains_flag (descNorm valNorm : Str) : Bool :=
  if valNorm = [] then true else occursIn valNorm descNorm

/-- The per-row mismatch predicate (bom_transform.py:447):
`mismatch = (val_norm != "") & (~contains_mask)`. -/
def mismatch_flag (desc val : Str) : Bool :=
  let a := normalize_for_match desc
  let b := normalize_for_match val
  (!(b = [] : Bool)) && !(contains_flag a b)

/-- The mismatch column over the zipped description/value columns
(bom_transform.py:440-447). -/
def mismatch_flags (descs vals : List Str) : List Bool :=
  (descs.zip vals).map (fun p => mismatch_flag p.1 p.2)

/-- The sort-key loop of `transform` (bom_transform.py:463-467): walk the
configured keys; at the first key that is not a column, replace the whole
key list by its filter to existing columns and stop. -/
def sort_keys_loop (cols : List Str) : List Str → List Str → List Str
  | orig, [] => orig
  | orig, k :: rest =>
    if cols.contains k then sort_keys_loop cols orig rest
    else orig.filter (fun x => cols.contains x)

/-- Resolved sort keys of `transform` (bom_transform.py:462-467). -/
def resolve_sort_keys (sortKeys cols : List Str) : List Str :=
  sort_keys_loop cols sortKeys sortKeys

/-- Python `str.capitalize()`: first character uppercased, the rest
lowercased. -/
def pyCapitalize : Str → Str
  | [] => []
  | c :: rest => Char.toUpper c :: rest.map Char.toLower

/-- Python `dict.get` on an association list with distinct keys: first
matching key wins. -/
def pyGet : List (Str × Str) → Str → Option Str
  | [], _ => none
  | (k, v) :: t, key => if k = key then some v else pyGet t key

/-- `category.split("/", 1)[0]`: the segment before the first `/` (the whole
string when there is no `/`). -/
def splitTop (s : Str) : Str := s.takeWhile (fun c => c ≠ '/')

/-- `compute_category_cn` (bom_transform.py:187-193).  A non-string input is
modelled as `none`. -/
def compute_category_cn (category : Option Str) (cat_map : List (Str × Str))
    (unknown : Str) : Str :=
  match category with
  | none => unknown
  | some c =>
    if strip c = [] then unknown
    else
      let top := strip (splitTop c)
      match pyGet cat_map top with
      | some v => v
      | none =>
        match pyGet cat_map (pyCapitalize top) with
        | some v => v
        | none => unknown

/-- The merge-range scan of `export_to_xlsx` (bom_transform.py:262-278):
walking the classification column with current row number, the start row of
the current run, and the previous value; a change of value closes the pending
range; at the end the pending range is closed at the last data row.  Row
numbers are 1-based spreadsheet rows, data starting at row 2. -/
def mergeScan : List Str → Nat → Nat → Str → List (Nat × Nat × Str)
  | [], rowNum, startRow, prev => [(startRow, rowNum - 1, prev)]
  | c :: rest, rowNum, startRow, prev =>
    if c ≠ prev then
      (startRow, rowNum - 1, prev) :: mergeScan rest (rowNum + 1) rowNum c
    else
      mergeScan rest (rowNum + 1) startRow prev

/-- The `ranges` list built by `export_to_xlsx` (bom_transform.py:258-278)
over the leading (classification) column. -/
def merge_ranges (col : List Str) : List (Nat × Nat × Str) :=
  match col with
  | [] => []
  | c0 :: _ => mergeScan col 2 2 c0

/-- Maximal runs of consecutive equal values, written from the
specification's wording: value together with run length. -/
def spec_runs : List Str → List (Str × Nat)
  | [] => []
  | c :: rest =>
    match spec_runs rest with
    | [] => [(c, 1)]
    | (v, n) :: t => if c = v then (v, n + 1) :: t else (c, 1) :: (v, n) :: t

/-- Turn runs into `(start_row, end_row, value)` ranges starting at a given
spreadsheet row. -/
def spec_ranges_from (start : Nat) : List (Str × Nat) → List (Nat × Nat × Str)
  | [] => []
  | (v, n) :: t => (start, start + n - 1, v) :: spec_ranges_from (start + n) t

/-- The ranges the specification describes: one range per maximal run of the
column, data rows starting at spreadsheet row 2. -/
def spec_merge_ranges (col : List Str) : List (Nat × Nat × Str) :=
  spec_ranges_from 2 (spec_runs col)

/-- Prepend a pending partial run onto a run list, merging with the head run
when the values agree. -/
def absorb (p : Str × Nat) : List (Str × Nat) → List (Str × Nat)
  | [] => [p]
  | (v, n) :: t => if v = p.1 then (v, p.2 + n) :: t else p :: (v, n) :: t

/-- Insert an element into a sorted list, before the first element it
compares `le` to (hence after every earlier-inserted equal element). -/
def insertBy {α : Type} (le : α → α → Bool) (a : α) : List α → List α
  | [] => [a]
  | b :: l => if le a b then a :: b :: l else b :: insertBy le a l

/-- Stable insertion sort.  A stable sort is uniquely determined by its
comparator and input, so this models any stable sorting routine with
comparator `le`. -/
def insSort {α : Type} (le : α → α → Bool) : List α → List α
  | [] => []
  | a :: l => insertBy le a (insSort le l)

/-- A sort-key cell: `none` models a pandas missing value (NaN). -/
abbrev SCell := Option Str

/-- A row restricted to its sortable columns, indexed by column position. -/
abbrev Row := List SCell

/-- Lexicographic string comparison (Python string `<=`). -/
def leStr : Str → Str → Bool
  | [], _ => true
  | _ :: _, [] => false
  | a :: as, b :: bs => if a = b then leStr as bs else decide (a < b)

/-- Cell comparison of `sort_values(..., na_position="last")`
(bom_transform.py:469-471), modelled from the pandas contract: missing
values order after every present value; present values compare as strings. -/
def leCell : SCell → SCell → Bool
  | none, none => true
  | none, some _ => false
  | some _, none => true
  | some a, some b => leStr a b

/-- The sort value of a row at key (column) `k`. -/
def keyCell (r : Row) (k : Nat) : SCell := r.getD k none

/-- Multi-key row comparison of `sort_values(by=sort_keys, kind="stable",
na_position="last")` (bom_transform.py:469-471): keys applied in the given
order, ties broken by the next key. -/
def leRow (keys : List Nat) (r1 r2 : Row) : Bool :=
  match keys with
  | [] => true
  | k :: rest =>
    if keyCell r1 k = keyCell r2 k then leRow rest r1 r2
    else leCell (keyCell r1 k) (keyCell r2 k)

/-- `df.sort_values(by=sort_keys, kind="stable", na_position="last")`
(bom_transform.py:469-471), modelled from the pandas contract as the stable
sort with comparator `leRow` (a stable sort is uniquely determined by its
comparator and input). -/
def sort_rows (keys : List Nat) (rows : List Row) : List Row :=
  insSort (leRow keys) rows

/-- The tuple of sort values of a row. -/
def keyTuple (keys : List Nat) (r : Row) : List SCell :=
  keys.map (keyCell r)

/-- The five issue kinds (bom_transform.py:140-144). -/
inductive IssueKind
  | MissingColumn
  | EmptyDescription
  | ValueNotInDescription
  | MissingCategory
  | InvalidQty
deriving DecidableEq, Repr

/-- One ledger entry (the dicts appended to `issues` in `transform`):
reference, description, value, issue type, detail. -/
structure Issue where
  reference : Str
  desc : Str
  value : Str
  kind : IssueKind
  detail : Str
deriving DecidableEq, Repr

/-- Add one observation of kind `t` to a running tally. -/
def bump : List (IssueKind × Nat) → IssueKind → List (IssueKind × Nat)
  | [], t => [(t, 1)]
  | (k, n) :: tl, t =>
    if k = t then (k, n + 1) :: tl else (k, n) :: bump tl t

/-- Per-kind counts of a kind sequence (pandas
`groupby("IssueType").size()`, bom_transform.py:569, 600). -/
def tallyAux : List IssueKind → List (IssueKind × Nat) → List (IssueKind × Nat)
  | [], acc => acc
  | t :: rest, acc => tallyAux rest (bump acc t)

/-- Descending-count comparator of `.sort_values(ascending=False)`. -/
def leCount (a b : IssueKind × Nat) : Bool := decide (b.2 ≤ a.2)

/-- The summary section (bom_transform.py:568-574): per-kind counts sorted
by count, descending. -/
def issue_summary (issues : List Issue) : List (IssueKind × Nat) :=
  insSort leCount (tallyAux (issues.map (fun i => i.kind)) [])

/-- One rendered block of the detail section (bom_transform.py:580-590). -/
structure DetailBlock where
  kindLabel : Str
  reference : Str
  detail : Str
deriving DecidableEq, Repr

/-- The detail section (bom_transform.py:577-590): one block per ledger
entry, in ledger order, kind rendered through the localized label map. -/
def report_detail (cn : IssueKind → Str) (issues : List Issue) :
    List DetailBlock :=
  issues.map (fun i => ⟨cn i.kind, i.reference, i.detail⟩)

/-- Total count carried by a summary. -/
def sumCounts (l : List (IssueKind × Nat)) : Nat :=
  (l.map (fun p => p.2)).sum

/-- A dataframe cell: missing (NaN), a string, or an integer. -/
inductive Cell
  | missing
  | text (v : Str)
  | num (n : Int)
deriving DecidableEq, Repr

/-- `src_col in df.columns` / `df[src_col]`: first column of the given name. -/
def lookupCol (df : List (Str × List Cell)) (name : Str) : Option (List Cell) :=
  match df with
  | [] => none
  | (c, col) :: rest => if c = name then some col else lookupCol rest name

/-- The output-column projection loop of `transform`
(bom_transform.py:477-481), including the pandas assignment semantics on the
initially empty `out_df = pd.DataFrame()`.  State: the columns built so far
and whether the frame's index has been established.  A present source column
(a Series assignment) on a frame whose index is still empty establishes the
index over the `n` input rows and reindexes every previously created column
— all of which are zero-row scalar columns at that point — filling them
with NaN for every row (`_ensure_valid_index`).  A scalar `""` assignment
broadcasts to the `n` rows once the index exists, but creates a zero-row
column while it does not.  An empty input (`n = 0`) never establishes an
index. -/
def projectLoop (df : List (Str × List Cell)) (n : Nat) :
    List (Str × Str) → List (Str × List Cell) → Bool → List (Str × List Cell)
  | [], cols, _ => cols
  | p :: rest, cols, hasIndex =>
    match lookupCol df p.2 with
    | some col =>
      if hasIndex = false ∧ n ≠ 0 then
        projectLoop df n rest
          (cols.map (fun c => (c.1, List.replicate n Cell.missing)) ++
            [(p.1, col)]) true
      else
        projectLoop df n rest (cols ++ [(p.1, col)]) hasIndex
    | none =>
      if hasIndex then
        projectLoop df n rest
          (cols ++ [(p.1, List.replicate n (Cell.text []))]) hasIndex
      else
        projectLoop df n rest (cols ++ [(p.1, ([] : List Cell))]) hasIndex

/-- The output table built by `transform` (bom_transform.py:477-481): the
projection loop started on an empty frame. -/
def project (out_map : List (Str × Str)) (df : List (Str × List Cell))
    (n : Nat) : List (Str × List Cell) :=
  projectLoop df n out_map [] false

/-- Projection as the amended claim words it: entries in mapping order; an
absent-source entry processed before the first present-source entry is
filled with the missing value for every row (zero rows when no later entry
has a present source); from the first present-source entry on, present
sources carry their column and absent sources are filled with the empty
string for every row. -/
def spec_project (df : List (Str × List Cell)) (n : Nat) :
    List (Str × Str) → List (Str × List Cell)
  | [] => []
  | p :: rest =>
    match lookupCol df p.2 with
    | some col =>
      (p.1, col) ::
        rest.map (fun q =>
          (q.1, (lookupCol df q.2).getD (List.replicate n (Cell.text []))))
    | none =>
      (p.1,
        if rest.all (fun q => (lookupCol df q.2).isNone) then ([] : List Cell)
        else List.replicate n Cell.missing) :: spec_project df n rest

/-- `str(x)` on a cell (missing cells are filtered out before `str` is
applied in the quantity path). -/
def cellStr : Cell → Str
  | Cell.missing => chars ("nan")
  | Cell.text v => v
  | Cell.num n => (toString n).data

/-- Value of a digit string. -/
def digitsToNat (s : Str) : Nat :=
  s.foldl (fun n c => n * 10 + (c.toNat - 48)) 0

/-- `int(float(s))` on an already-stripped string, modelled on the decimal
core of the Python float grammar: optional sign, digits, optional fractional
part; the fractional part is discarded (truncation toward zero).  Strings
accepted by `float` whose `int(...)` nevertheless raises (`"nan"`, `"inf"`)
are parse failures here, matching the end-to-end behaviour. -/
def parseQtyInt (s : Str) : Option Int :=
  let p := match s with
    | '-' :: r => (true, r)
    | '+' :: r => (false, r)
    | r => (false, r)
  let ip := p.2.takeWhile Char.isDigit
  let rest := p.2.drop ip.length
  let ok := match rest with
    | [] => !ip.isEmpty
    | '.' :: fr => fr.all Char.isDigit && (!ip.isEmpty || !fr.isEmpty)
    | _ => false
  if ok then
    some (if p.1 then -(digitsToNat ip : Int) else (digitsToNat ip : Int))
  else none

/-- The `InvalidQty` ledger entry of `to_int_or_keep`
(bom_transform.py:366-376): blank reference, the raw value as the issue's
description, the raw value echoed in the detail. -/
def invalidQtyIssue (raw : Str) : Issue :=
  ⟨[], raw, [], IssueKind.InvalidQty, chars ("数量格式无效: ") ++ raw⟩

/-- `to_int_or_keep` (bom_transform.py:360-376): a missing value is returned
unchanged with no issue; otherwise `int(float(str(x).strip()))` is attempted;
on success the integer is stored, on failure the original cell is kept and
one `InvalidQty` issue is appended. -/
def to_int_or_keep (x : Cell) : Cell × List Issue :=
  match x with
  | Cell.missing => (Cell.missing, [])
  | Cell.text v =>
    match parseQtyInt (strip v) with
    | some n => (Cell.num n, [])
    | none => (Cell.text v, [invalidQtyIssue v])
  | Cell.num n =>
    match parseQtyInt (strip (cellStr (Cell.num n))) with
    | some m => (Cell.num m, [])
    | none => (Cell.num n, [invalidQtyIssue (cellStr (Cell.num n))])

/-- Display width of one character (bom_transform.py:319): non-ASCII counts
as two units. -/
def char_display_width (c : Char) : Nat := if 127 < c.toNat then 2 else 1

/-- Display width of a cell string (bom_transform.py:319). -/
def cell_display_width (s : Str) : Nat := (s.map char_display_width).sum

/-- The `max_length` fold of `export_to_xlsx` (bom_transform.py:305,
316-320): seeded with the plain character count of the header, then folded
with the weighted width of every cell. -/
def col_max_length (header : Str) (cells : List Str) : Nat :=
  cells.foldl (fun m s => max m (cell_display_width s)) header.length

/-- Column width chosen by `export_to_xlsx` (bom_transform.py:299-324):
fixed 31.1 for the reference column, fixed 13.13 for the quantity column,
otherwise `min(max_length + 2, 100)`. -/
def column_width (header : Str) (cells : List Str) : ℚ :=
  if header = chars ("位号") then 31.1
  else if header = chars ("数量") then 13.13
  else ((min (col_max_length header cells + 2) 100 : Nat) : ℚ)

/-- Maximum weighted width over a list of cell strings. -/
def max_cell_width (cells : List Str) : Nat :=
  cells.foldr (fun s m => max (cell_display_width s) m) 0

/-- Column width as the claim words it: the weighted width is applied to the
header as well as to the cells. -/
def claimed_column_width (header : Str) (cells : List Str) : ℚ :=
  if header = chars ("位号") then 31.1
  else if header = chars ("数量") then 13.13
  else ((min (max (cell_display_width header) (max_cell_width cells) + 2) 100
    : Nat) : ℚ)

/-- Column width as amended: the header contributes its plain character
count (one unit per character, ASCII or not); cells contribute their
weighted widths. -/
def amended_column_width (header : Str) (cells : List Str) : ℚ :=
  if header = chars ("位号") then 31.1
  else if header = chars ("数量") then 13.13
  else ((min (max header.length (max_cell_width cells) + 2) 100 : Nat) : ℚ)

/-- Outcome of the environment-dependent part of `main`
(bom_transform.py:514-534): the input file is absent, the file cannot be
decoded by any attempted encoding, or the file decodes and the transform
runs to completion with some issue ledger. -/
inductive InputState
  | missingFile
  | undecodable
  | decoded (ledger : List Issue)

/-- The exit status of `main` (bom_transform.py:517, 534, 624): 2 for a
missing input file, 3 for an undecodable file, and 0 on completion — the
ledger produced by the transform is never consulted. -/
def main_status : InputState → Nat
  | InputState.missingFile => 2
  | InputState.undecodable => 3
  | InputState.decoded _ => 0

def wOutMap : List (Str × Str) :=
  [(chars ("位号"), chars ("Reference")), (chars ("料号"), chars ("Part-DB IPN"))]

def wDf : List (Str × List Cell) :=
  [(chars ("Reference"), [Cell.text (chars ("R1"))])]

theorem mismatch_flag_iff (desc val : Str) :
    mismatch_flag desc val = true ↔
      normalize_for_match val ≠ [] ∧
        occursIn (normalize_for_match val) (normalize_for_match desc) = false := by
  by_cases hb : normalize_for_match val = []
  · simp [mismatch_flag, contains_flag, hb]
  · simp [mismatch_flag, contains_flag, hb]

theorem sort_keys_loop_eq (cols orig : List Str) :
    ∀ pending : List Str,
      sort_keys_loop cols orig pending =
        if pending.all (fun k => cols.contains k) then orig
        else orig.filter (fun x => cols.contains x) := by
  intro pending
  induction pending with
  | nil => simp [sort_keys_loop]
  | cons k rest ih =>
    cases hk : cols.contains k with
    | true =>
      simp only [sort_keys_loop, hk, if_true, ih, List.all_cons, Bool.true_and]
    | false =>
      simp only [sort_keys_loop, hk, Bool.false_eq_true, if_false, List.all_cons,
        Bool.false_and]

theorem resolve_sort_keys_eq_filter (sortKeys cols : List Str) :
    resolve_sort_keys sortKeys cols =
      sortKeys.filter (fun k => cols.contains k) := by
  rw [resolve_sort_keys, sort_keys_loop_eq]
  by_cases h : sortKeys.all (fun k => cols.contains k) = true
  · rw [if_pos h]
    refine (List.filter_eq_self.mpr ?_).symm
    intro a ha
    exact List.all_eq_true.mp h a ha
  · rw [if_neg h]

theorem pyGet_mem {m : List (Str × Str)} {k v : Str} :
    pyGet m k = some v → (k, v) ∈ m := by
  induction m with
  | nil => intro h; simp [pyGet] at h
  | cons p t ih =>
    obtain ⟨k1, v1⟩ := p
    intro h
    by_cases hk : k1 = k
    · subst hk
      simp [pyGet] at h
      subst h
      exact List.mem_cons_self _ _
    · simp only [pyGet, if_neg hk] at h
      exact List.mem_cons_of_mem _ (ih h)

theorem spec_runs_head (c : Str) (rest : List Str) :
    ∃ n t, spec_runs (c :: rest) = (c, n) :: t := by
  show ∃ n t,
    (match spec_runs rest with
      | [] => [(c, 1)]
      | (v, n) :: t => if c = v then (v, n + 1) :: t else (c, 1) :: (v, n) :: t) =
      (c, n) :: t
  cases h : spec_runs rest with
  | nil => exact ⟨1, [], rfl⟩
  | cons p t =>
    obtain ⟨v, n⟩ := p
    by_cases hc : c = v
    · subst hc
      exact ⟨n + 1, t, by simp⟩
    · exact ⟨1, (v, n) :: t, by simp [hc]⟩

theorem mergeScan_eq_spec (col : List Str) :
    ∀ r s prev, s ≤ r →
      mergeScan col r s prev =
        spec_ranges_from s (absorb (prev, r - s) (spec_runs col)) := by
  induction col with
  | nil =>
    intro r s prev hsr
    have h1 : s + (r - s) - 1 = r - 1 := by omega
    simp [mergeScan, spec_runs, absorb, spec_ranges_from, h1]
  | cons c rest ih =>
    intro r s prev hsr
    by_cases hc : c = prev
    · subst hc
      have hle : s ≤ r + 1 := by omega
      have lhs : mergeScan (c :: rest) r s c = mergeScan rest (r + 1) s c := by
        simp [mergeScan]
      rw [lhs, ih (r + 1) s c hle]
      congr 1
      cases h : spec_runs rest with
      | nil =>
        have h1 : r + 1 - s = r - s + 1 := by omega
        simp [spec_runs, h, absorb, h1]
      | cons p t =>
        obtain ⟨v, n⟩ := p
        by_cases hv : c = v
        · subst hv
          have h1 : r + 1 - s + n = r - s + (n + 1) := by omega
          simp [spec_runs, h, absorb, h1]
        · have hv2 : v ≠ c := fun hh => hv hh.symm
          have h1 : r + 1 - s = r - s + 1 := by omega
          simp [spec_runs, h, absorb, hv, hv2, h1]
    · have hne : c ≠ prev := hc
      have lhs2 : mergeScan (c :: rest) r s prev =
          (s, r - 1, prev) :: mergeScan rest (r + 1) r c := by
        simp [mergeScan, hne]
      rw [lhs2, ih (r + 1) r c (by omega)]
      have h11 : r + 1 - r = 1 := by omega
      rw [h11]
      cases h : spec_runs rest with
      | nil =>
        have h1 : s + (r - s) - 1 = r - 1 := by omega
        have h2 : s + (r - s) = r := by omega
        have hpc : prev ≠ c := fun hh => hne hh.symm
        simp [spec_runs, h, absorb, hpc, hne, spec_ranges_from, h1, h2]
      | cons p t =>
        obtain ⟨v, n⟩ := p
        have hpc : prev ≠ c := fun hh => hne hh.symm
        by_cases hv : c = v
        · subst hv
          have h1 : s + (r - s) - 1 = r - 1 := by omega
          have h2 : s + (r - s) = r := by omega
          have h3 : r + (n + 1) - 1 = r + n := by omega
          simp [spec_runs, h, absorb, hpc, hne, spec_ranges_from, h1, h2, h3,
            Nat.add_comm 1 n]
        · have hv2 : v ≠ c := fun hh => hv hh.symm
          have h1 : s + (r - s) - 1 = r - 1 := by omega
          have h2 : s + (r - s) = r := by omega
          simp [spec_runs, h, absorb, hpc, hne, hv, hv2, spec_ranges_from,
            h1, h2]

theorem merge_ranges_eq_spec (col : List Str) :
    merge_ranges col = spec_merge_ranges col := by
  cases col with
  | nil => rfl
  | cons c0 rest =>
    obtain ⟨n, t, hrun⟩ := spec_runs_head c0 rest
    have h := mergeScan_eq_spec (c0 :: rest) 2 2 c0 (le_refl 2)
    rw [merge_ranges, h, spec_merge_ranges, hrun]
    simp [absorb]

theorem spec_runs_sum (col : List Str) :
    ((spec_runs col).map (fun p => p.2)).sum = col.length := by
  induction col with
  | nil => rfl
  | cons c rest ih =>
    cases h : spec_runs rest with
    | nil =>
      rw [h] at ih
      simp only [List.map_nil, List.sum_nil] at ih
      simp [spec_runs, h, ← ih]
    | cons p t =>
      obtain ⟨v, n⟩ := p
      rw [h] at ih
      simp only [List.map_cons, List.sum_cons] at ih
      by_cases hc : c = v
      · subst hc
        have he : spec_runs (c :: rest) = (c, n + 1) :: t := by
          simp [spec_runs, h]
        rw [he]
        simp only [List.map_cons, List.sum_cons, List.length_cons]
        omega
      · have he : spec_runs (c :: rest) = (c, 1) :: (v, n) :: t := by
          simp [spec_runs, h, hc]
        rw [he]
        simp only [List.map_cons, List.sum_cons, List.length_cons]
        omega

theorem spec_runs_chain (col : List Str) :
    List.Chain' (fun a b => a.1 ≠ b.1) (spec_runs col) := by
  induction col with
  | nil => simp [spec_runs]
  | cons c rest ih =>
    cases h : spec_runs rest with
    | nil => simp [spec_runs, h]
    | cons p t =>
      obtain ⟨v, n⟩ := p
      rw [h] at ih
      by_cases hc : c = v
      · subst hc
        have he : spec_runs (c :: rest) = (c, n + 1) :: t := by
          simp [spec_runs, h]
        rw [he]
        cases t with
        | nil => simp
        | cons b t2 =>
          rw [List.chain'_cons] at ih ⊢
          exact ⟨ih.1, ih.2⟩
      · have he : spec_runs (c :: rest) = (c, 1) :: (v, n) :: t := by
          simp [spec_runs, h, hc]
        rw [he, List.chain'_cons]
        exact ⟨hc, ih⟩

section StableSort

variable {α : Type} (le : α → α → Bool)

theorem insertBy_perm (a : α) (l : List α) :
    List.Perm (insertBy le a l) (a :: l) := by
  induction l with
  | nil => exact List.Perm.refl _
  | cons b l ih =>
    by_cases h : le a b = true
    · simp [insertBy, h]
    · simp only [insertBy, h, if_false, Bool.false_eq_true]
      exact (ih.cons b).trans (List.Perm.swap a b l)

theorem insSort_perm (l : List α) : List.Perm (insSort le l) l := by
  induction l with
  | nil => exact List.Perm.refl _
  | cons a l ih =>
    exact (insertBy_perm le a (insSort le l)).trans (ih.cons a)

theorem mem_insertBy {x a : α} {l : List α} :
    x ∈ insertBy le a l ↔ x = a ∨ x ∈ l := by
  constructor
  · intro hx
    have := (insertBy_perm le a l).mem_iff.mp hx
    simpa using this
  · intro hx
    refine (insertBy_perm le a l).mem_iff.mpr ?_
    simpa using hx

theorem pairwise_insertBy
    (htrans : ∀ x y z, le x y = true → le y z = true → le x z = true)
    (htot : ∀ x y, le x y = true ∨ le y x = true)
    {a : α} {l : List α} (hl : List.Pairwise (fun x y => le x y = true) l) :
    List.Pairwise (fun x y => le x y = true) (insertBy le a l) := by
  induction l with
  | nil => simp [insertBy]
  | cons b l ih =>
    rw [List.pairwise_cons] at hl
    by_cases hab : le a b = true
    · simp only [insertBy, hab, if_true]
      rw [List.pairwise_cons]
      refine ⟨?_, List.pairwise_cons.mpr hl⟩
      intro y hy
      rcases List.mem_cons.mp hy with rfl | hy2
      · exact hab
      · exact htrans a b y hab (hl.1 y hy2)
    · simp only [insertBy, hab, if_false, Bool.false_eq_true]
      rw [List.pairwise_cons]
      constructor
      · intro y hy
        rcases (mem_insertBy le).mp hy with rfl | hy2
        · exact (htot y b).resolve_left hab
        · exact hl.1 y hy2
      · exact ih hl.2

theorem pairwise_insSort
    (htrans : ∀ x y z, le x y = true → le y z = true → le x z = true)
    (htot : ∀ x y, le x y = true ∨ le y x = true) (l : List α) :
    List.Pairwise (fun x y => le x y = true) (insSort le l) := by
  induction l with
  | nil => simp [insSort]
  | cons a l ih =>
    exact pairwise_insertBy le htrans htot ih

theorem filter_insertBy_pos (p : α → Bool) {a : α} {l : List α}
    (hp : p a = true) (h : ∀ y ∈ l, p y = true → le a y = true) :
    (insertBy le a l).filter p = a :: l.filter p := by
  induction l with
  | nil => simp [insertBy, hp]
  | cons b l ih =>
    by_cases hab : le a b = true
    · simp [insertBy, hab, hp]
    · have hpb : p b = false := by
        cases hpb : p b with
        | false => rfl
        | true => exact absurd (h b (List.mem_cons_self b l) hpb) hab
      simp only [insertBy, hab, if_false, Bool.false_eq_true]
      rw [List.filter_cons_of_neg (by simp [hpb]),
        List.filter_cons_of_neg (by simp [hpb])]
      exact ih (fun y hy hpy => h y (List.mem_cons_of_mem b hy) hpy)

theorem filter_insertBy_neg (p : α → Bool) {a : α} {l : List α}
    (hp : p a = false) :
    (insertBy le a l).filter p = l.filter p := by
  induction l with
  | nil => simp [insertBy, hp]
  | cons b l ih =>
    by_cases hab : le a b = true
    · simp [insertBy, hab, hp]
    · simp only [insertBy, hab, if_false, Bool.false_eq_true]
      cases hpb : p b with
      | false =>
        rw [List.filter_cons_of_neg (by simp [hpb]),
          List.filter_cons_of_neg (by simp [hpb])]
        exact ih
      | true =>
        rw [List.filter_cons_of_pos (by simp [hpb]),
          List.filter_cons_of_pos (by simp [hpb]), ih]

/-- Stability of insertion sort: elements selected by a predicate on which
the comparator always answers `true` (mutually tied elements) keep their
input order. -/
theorem filter_insSort (p : α → Bool)
    (h : ∀ x y, p x = true → p y = true → le x y = true) (l : List α) :
    (insSort le l).filter p = l.filter p := by
  induction l with
  | nil => rfl
  | cons a l ih =>
    cases hp : p a with
    | false =>
      rw [insSort, filter_insertBy_neg le p hp, ih,
        List.filter_cons_of_neg (by simp [hp])]
    | true =>
      rw [insSort, filter_insertBy_pos le p hp
        (fun y _ hpy => h a y hp hpy), ih,
        List.filter_cons_of_pos (by simp [hp])]

end StableSort

theorem leStr_total (s : Str) : ∀ t : Str, leStr s t = true ∨ leStr t s = true := by
  induction s with
  | nil => intro t; left; rfl
  | cons a as ih =>
    intro t
    cases t with
    | nil => right; rfl
    | cons b bs =>
      by_cases hab : a = b
      · subst hab
        rcases ih bs with h | h
        · left; simp [leStr, h]
        · right; simp [leStr, h]
      · rcases lt_or_gt_of_ne hab with h | h
        · left; simp [leStr, hab, h]
        · right
          have hba : b ≠ a := fun hh => hab hh.symm
          simp [leStr, hba, h]

theorem leStr_trans :
    ∀ s t u : Str, leStr s t = true → leStr t u = true → leStr s u = true := by
  intro s
  induction s with
  | nil => intro t u _ _; rfl
  | cons a as ih =>
    intro t u hst htu
    cases t with
    | nil => simp [leStr] at hst
    | cons b bs =>
      cases u with
      | nil => simp [leStr] at htu
      | cons c cs =>
        by_cases hab : a = b <;> by_cases hbc : b = c
        · subst hab; subst hbc
          simp only [leStr, if_pos rfl] at hst htu ⊢
          exact ih bs cs hst htu
        · subst hab
          rw [leStr, if_neg hbc] at htu
          rw [leStr, if_neg hbc]
          exact htu
        · subst hbc
          rw [leStr, if_neg hab] at hst
          rw [leStr, if_neg hab]
          exact hst
        · have h1 : a < b := by
            by_contra hlt
            simp [leStr, hab, hlt] at hst
          have h2 : b < c := by
            by_contra hlt
            simp [leStr, hbc, hlt] at htu
          have hac : a < c := lt_trans h1 h2
          simp [leStr, ne_of_lt hac, hac]

theorem leStr_antisymm :
    ∀ s t : Str, leStr s t = true → leStr t s = true → s = t := by
  intro s
  induction s with
  | nil =>
    intro t _ hts
    cases t with
    | nil => rfl
    | cons b bs => simp [leStr] at hts
  | cons a as ih =>
    intro t hst hts
    cases t with
    | nil => simp [leStr] at hst
    | cons b bs =>
      by_cases hab : a = b
      · subst hab
        simp only [leStr, if_pos rfl] at hst hts
        rw [ih bs hst hts]
      · have h1 : a < b := by
          by_contra hlt
          simp [leStr, hab, hlt] at hst
        have hba : b ≠ a := fun hh => hab hh.symm
        have h2 : b < a := by
          by_contra hlt
          simp [leStr, hba, hlt] at hts
        exact absurd h2 (lt_asymm h1)

theorem leCell_total (x y : SCell) : leCell x y = true ∨ leCell y x = true := by
  cases x <;> cases y <;> simp [leCell]
  exact leStr_total _ _

theorem leCell_trans {x y z : SCell} :
    leCell x y = true → leCell y z = true → leCell x z = true := by
  cases x <;> cases y <;> cases z <;> simp [leCell]
  exact fun h1 h2 => leStr_trans _ _ _ h1 h2

theorem leCell_antisymm {x y : SCell} :
    leCell x y = true → leCell y x = true → x = y := by
  cases x <;> cases y <;> simp [leCell]
  exact fun h1 h2 => leStr_antisymm _ _ h1 h2

theorem leRow_total (keys : List Nat) (r1 r2 : Row) :
    leRow keys r1 r2 = true ∨ leRow keys r2 r1 = true := by
  induction keys with
  | nil => left; rfl
  | cons k rest ih =>
    by_cases hk : keyCell r1 k = keyCell r2 k
    · have hk2 : keyCell r2 k = keyCell r1 k := hk.symm
      rcases ih with h | h
      · left; simp [leRow, hk, h]
      · right; simp [leRow, hk2, h]
    · have hk2 : ¬ keyCell r2 k = keyCell r1 k := fun hh => hk hh.symm
      rcases leCell_total (keyCell r1 k) (keyCell r2 k) with h | h
      · left; simp [leRow, hk, h]
      · right; simp [leRow, hk2, h]

theorem leRow_trans (keys : List Nat) (r1 r2 r3 : Row) :
    leRow keys r1 r2 = true → leRow keys r2 r3 = true →
      leRow keys r1 r3 = true := by
  induction keys with
  | nil => intro _ _; rfl
  | cons k rest ih =>
    intro h12 h23
    by_cases h1 : keyCell r1 k = keyCell r2 k <;>
      by_cases h2 : keyCell r2 k = keyCell r3 k
    · rw [leRow, if_pos h1] at h12
      rw [leRow, if_pos h2] at h23
      rw [leRow, if_pos (h1.trans h2)]
      exact ih h12 h23
    · rw [leRow, if_pos h1] at h12
      rw [leRow, if_neg h2] at h23
      have h13 : ¬ keyCell r1 k = keyCell r3 k := by rw [h1]; exact h2
      rw [leRow, if_neg h13, h1]
      exact h23
    · rw [leRow, if_neg h1] at h12
      rw [leRow, if_pos h2] at h23
      have h13 : ¬ keyCell r1 k = keyCell r3 k := by rw [← h2]; exact h1
      rw [leRow, if_neg h13, ← h2]
      exact h12
    · rw [leRow, if_neg h1] at h12
      rw [leRow, if_neg h2] at h23
      by_cases h13 : keyCell r1 k = keyCell r3 k
      · exfalso
        apply h1
        apply leCell_antisymm h12
        rw [← h13] at h23
        exact h23
      · rw [leRow, if_neg h13]
        exact leCell_trans h12 h23

theorem keyTuple_eq_leRow {keys : List Nat} {r1 r2 : Row} :
    keyTuple keys r1 = keyTuple keys r2 → leRow keys r1 r2 = true := by
  induction keys with
  | nil => intro _; rfl
  | cons k rest ih =>
    intro h
    simp only [keyTuple, List.map_cons, List.cons.injEq] at h
    rw [leRow, if_pos h.1]
    exact ih h.2

theorem sumCounts_bump (acc : List (IssueKind × Nat)) (t : IssueKind) :
    sumCounts (bump acc t) = sumCounts acc + 1 := by
  induction acc with
  | nil => rfl
  | cons p tl ih =>
    obtain ⟨k, n⟩ := p
    by_cases hk : k = t
    · simp [bump, hk, sumCounts]
      omega
    · simp only [bump, if_neg hk]
      simp only [sumCounts, List.map_cons, List.sum_cons] at ih ⊢
      omega

theorem sumCounts_tallyAux (ks : List IssueKind) :
    ∀ acc, sumCounts (tallyAux ks acc) = sumCounts acc + ks.length := by
  induction ks with
  | nil => intro acc; simp [tallyAux]
  | cons t rest ih =>
    intro acc
    rw [tallyAux, ih, sumCounts_bump]
    simp
    omega

theorem sumCounts_insSort (l : List (IssueKind × Nat)) :
    sumCounts (insSort leCount l) = sumCounts l := by
  unfold sumCounts
  exact List.Perm.sum_eq (List.Perm.map _ (insSort_perm leCount l))

theorem lookupCol_mem {df : List (Str × List Cell)} {name : Str}
    {col : List Cell} : lookupCol df name = some col → (name, col) ∈ df := by
  induction df with
  | nil => intro h; simp [lookupCol] at h
  | cons p rest ih =>
    obtain ⟨c, cl⟩ := p
    intro h
    by_cases hc : c = name
    · subst hc
      simp [lookupCol] at h
      subst h
      exact List.mem_cons_self _ _
    · simp only [lookupCol, if_neg hc] at h
      exact List.mem_cons_of_mem _ (ih h)

theorem foldl_max_eq (w : Str → Nat) (cells : List Str) :
    ∀ a : Nat, cells.foldl (fun m s => max m (w s)) a =
      max a (cells.foldr (fun s m => max (w s) m) 0) := by
  induction cells with
  | nil => intro a; simp
  | cons s t ih =>
    intro a
    rw [List.foldl_cons, ih (max a (w s)), List.foldr_cons, Nat.max_assoc]

theorem projectLoop_true (df : List (Str × List Cell)) (n : Nat) :
    ∀ (pending : List (Str × Str)) (cols : List (Str × List Cell)),
      projectLoop df n pending cols true =
        cols ++ pending.map (fun q =>
          (q.1, (lookupCol df q.2).getD (List.replicate n (Cell.text [])))) := by
  intro pending
  induction pending with
  | nil => intro cols; simp [projectLoop]
  | cons q rest ih =>
    intro cols
    cases hl : lookupCol df q.2 with
    | some col =>
      simp only [projectLoop, hl]
      rw [if_neg (by simp), ih]
      simp [hl, List.append_assoc]
    | none =>
      simp only [projectLoop, hl, if_pos rfl]
      rw [ih]
      simp [hl, List.append_assoc]

theorem projectLoop_zero (df : List (Str × List Cell)) :
    ∀ (pending : List (Str × Str)) (cols : List (Str × List Cell)),
      projectLoop df 0 pending cols false =
        cols ++ pending.map (fun q =>
          (q.1, (lookupCol df q.2).getD ([] : List Cell))) := by
  intro pending
  induction pending with
  | nil => intro cols; simp [projectLoop]
  | cons q rest ih =>
    intro cols
    cases hl : lookupCol df q.2 with
    | some col =>
      simp only [projectLoop, hl]
      rw [if_neg (by simp), ih]
      simp [hl, List.append_assoc]
    | none =>
      simp only [projectLoop, hl]
      rw [if_neg (by simp), ih]
      simp [hl, List.append_assoc]

theorem spec_project_zero (df : List (Str × List Cell)) :
    ∀ l : List (Str × Str), spec_project df 0 l =
      l.map (fun q => (q.1, (lookupCol df q.2).getD ([] : List Cell))) := by
  intro l
  induction l with
  | nil => rfl
  | cons q rest ih =>
    cases hl : lookupCol df q.2 with
    | some col =>
      simp only [spec_project, hl, List.map_cons, List.replicate_zero]
      rfl
    | none =>
      simp only [spec_project, hl, List.map_cons, ih, List.replicate_zero,
        ite_self]
      rfl

theorem projectLoop_false (df : List (Str × List Cell)) (n : Nat)
    (hn : n ≠ 0) :
    ∀ (pending : List (Str × Str)) (cols : List (Str × List Cell)),
      (∀ c ∈ cols, c.2 = ([] : List Cell)) →
      projectLoop df n pending cols false =
        (if pending.all (fun q => (lookupCol df q.2).isNone) then cols
         else cols.map (fun c => (c.1, List.replicate n Cell.missing))) ++
          spec_project df n pending := by
  intro pending
  induction pending with
  | nil =>
    intro cols hcols
    simp [projectLoop, spec_project]
  | cons q rest ih =>
    intro cols hcols
    cases hl : lookupCol df q.2 with
    | some col =>
      simp only [projectLoop, hl]
      rw [if_pos ⟨by simp, hn⟩, projectLoop_true df n rest]
      have hallf : ((q :: rest).all (fun p => (lookupCol df p.2).isNone))
          = false := by
        simp [List.all_cons, hl]
      rw [hallf]
      simp [spec_project, hl, List.append_assoc]
    | none =>
      have hinv : ∀ c ∈ cols ++ [(q.1, ([] : List Cell))],
          c.2 = ([] : List Cell) := by
        intro c hc
        rcases List.mem_append.mp hc with h1 | h1
        · exact hcols c h1
        · simp only [List.mem_singleton] at h1
          subst h1
          rfl
      simp only [projectLoop, hl]
      rw [if_neg (by simp), ih (cols ++ [(q.1, ([] : List Cell))]) hinv]
      have hallc : ((q :: rest).all (fun p => (lookupCol df p.2).isNone)) =
          rest.all (fun p => (lookupCol df p.2).isNone) := by
        simp [List.all_cons, hl]
      rw [hallc]
      cases hall : rest.all (fun p => (lookupCol df p.2).isNone) with
      | true =>
        simp [hall, spec_project, hl, List.append_assoc]
      | false =>
        simp [hall, spec_project, hl, List.append_assoc]

theorem project_eq_spec (out_map : List (Str × Str))
    (df : List (Str × List Cell)) (n : Nat) :
    project out_map df n = spec_project df n out_map := by
  by_cases hn : n = 0
  · subst hn
    rw [project, projectLoop_zero, spec_project_zero]
    simp
  · rw [project, projectLoop_false df n hn out_map [] (by simp)]
    cases hall : out_map.all (fun p => (lookupCol df p.2).isNone) with
    | true => simp [hall]
    | false => simp [hall]

theorem spec_project_fst (df : List (Str × List Cell)) (n : Nat) :
    ∀ l : List (Str × Str),
      (spec_project df n l).map Prod.fst = l.map Prod.fst := by
  intro l
  induction l with
  | nil => rfl
  | cons q rest ih =>
    cases hl : lookupCol df q.2 with
    | some col =>
      simp only [spec_project, hl, List.map_cons, List.map_map]
      rfl
    | none =>
      simp only [spec_project, hl, List.map_cons, ih]

theorem spec_project_length (df : List (Str × List Cell)) (n : Nat) :
    ∀ l : List (Str × Str), (∀ c ∈ df, c.2.length = n) →
      l.all (fun p => (lookupCol df p.2).isNone) = false →
      ∀ q ∈ spec_project df n l, q.2.length = n := by
  intro l
  induction l with
  | nil =>
    intro _ h
    simp at h
  | cons q rest ih =>
    intro hwf hall x hx
    cases hl : lookupCol df q.2 with
    | some col =>
      simp only [spec_project, hl] at hx
      rcases List.mem_cons.mp hx with rfl | hx2
      · exact hwf (q.2, col) (lookupCol_mem hl)
      · rcases List.mem_map.mp hx2 with ⟨p, hp, rfl⟩
        cases hl2 : lookupCol df p.2 with
        | some c2 =>
          simp only [hl2, Option.getD_some]
          exact hwf (p.2, c2) (lookupCol_mem hl2)
        | none => simp [hl2]
    | none =>
      have hallr : rest.all (fun p => (lookupCol df p.2).isNone) = false := by
        simpa [List.all_cons, hl] using hall
      simp only [spec_project, hl] at hx
      rcases List.mem_cons.mp hx with rfl | hx2
      · simp [hallr]
      · exact ih hwf hallr x hx2

theorem spec_project_all_absent (df : List (Str × List Cell)) (n : Nat) :
    ∀ l : List (Str × Str),
      l.all (fun p => (lookupCol df p.2).isNone) = true →
      ∀ q ∈ spec_project df n l, q.2 = ([] : List Cell) := by
  intro l
  induction l with
  | nil =>
    intro _ q hq
    simp [spec_project] at hq
  | cons p rest ih =>
    intro hall x hx
    rw [List.all_cons, Bool.and_eq_true] at hall
    have hl2 : lookupCol df p.2 = none :=
      Option.isNone_iff_eq_none.mp hall.1
    simp only [spec_project, hl2] at hx
    rcases List.mem_cons.mp hx with rfl | hx2
    · simp [hall.2]
    · exact ih hall.2 x hx2

/-- C1: with the fuzzy-match option enabled and both columns present, a row
gets a `ValueNotInDescription` flag iff its normalized value is non-empty
and is not a substring of its normalized description; a row with an empty
normalized value is never flagged. -/
theorem value_not_in_description_iff (descs vals : List Str) (i : Nat)
    (h1 : i < descs.length) (h2 : i < vals.length) :
    (mismatch_flags descs vals).getD i false = true ↔
      normalize_for_match (vals.getD i []) ≠ [] ∧
        occursIn (normalize_for_match (vals.getD i []))
          (normalize_for_match (descs.getD i [])) = false := by
  have hlen : i < (descs.zip vals).length := by
    rw [List.length_zip]
    omega
  have hlen2 : i < (mismatch_flags descs vals).length := by
    rw [mismatch_flags, List.length_map]
    exact hlen
  rw [List.getD_eq_getElem _ _ hlen2, List.getD_eq_getElem _ _ h1,
    List.getD_eq_getElem _ _ h2]
  simp only [mismatch_flags, List.getElem_map, List.getElem_zip]
  exact mismatch_flag_iff _ _

theorem value_not_in_description_iff_witness :
    (0 < [chars ("Cap 100nF")].length ∧ 0 < [chars ("1uF")].length) ∧
      ((mismatch_flags [chars ("Cap 100nF")] [chars ("1uF")]).getD 0 false = true ↔
        normalize_for_match ([chars ("1uF")].getD 0 []) ≠ [] ∧
          occursIn (normalize_for_match ([chars ("1uF")].getD 0 []))
            (normalize_for_match ([chars ("Cap 100nF")].getD 0 [])) = false) :=
  ⟨⟨by decide, by decide⟩,
    value_not_in_description_iff [chars ("Cap 100nF")] [chars ("1uF")] 0
      (by decide) (by decide)⟩

/-- C2 counterexample: with configured keys `["Category_CN", "Reference"]`
and a table whose only column is `Reference`, the first key is unresolvable,
yet the later key is kept — the resolved key list is `["Reference"]`, not
the empty truncation the claim predicts. -/
theorem sort_key_truncation_counterexample :
    resolve_sort_keys [chars ("Category_CN"), chars ("Reference")]
        [chars ("Reference")] = [chars ("Reference")] ∧
      ([chars ("Reference")] : List Str) ≠ [] := by
  constructor
  · decide
  · decide

/-- C2 amended: a configured sort key that is not a column of the table is
dropped individually — the resolved key list is the filter of the configured
list to existing columns, keeping every later resolvable key in order. -/
theorem sort_keys_filtered_individually (sortKeys cols : List Str) :
    resolve_sort_keys sortKeys cols =
      sortKeys.filter (fun k => cols.contains k) :=
  resolve_sort_keys_eq_filter sortKeys cols

/-- C3 counterexample: a present-but-empty sort value sorts before `"A"`
(ordinary lexicographic position), not after all other rows as the claim
states; the sorted output keeps the empty-valued row first. -/
theorem empty_sort_value_first_counterexample :
    sort_rows [0] [[some ([] : Str)], [some (chars ("A"))]] =
        [[some ([] : Str)], [some (chars ("A"))]] ∧
      sort_rows [0] [[some ([] : Str)], [some (chars ("A"))]] ≠
        [[some (chars ("A"))], [some ([] : Str)]] := by
  constructor
  · decide
  · decide

/-- C3 amended: sorting applies the resolved keys in the given order with a
stable sort — the output is a permutation of the input, sorted under the
lexicographic multi-key comparator with missing (NA) values last, and rows
equal under all keys keep their pre-sort relative order; empty-string values
take their ordinary lexicographic position (first among strings) rather
than sorting last.  The claim's concrete example holds. -/
theorem stable_multikey_sort_with_missing_last :
    (∀ (keys : List Nat) (rows : List Row),
      List.Perm (sort_rows keys rows) rows) ∧
    (∀ (keys : List Nat) (rows : List Row),
      List.Pairwise (fun r1 r2 => leRow keys r1 r2 = true)
        (sort_rows keys rows)) ∧
    (∀ (keys : List Nat) (rows : List Row) (t : List SCell),
      (sort_rows keys rows).filter (fun r => decide (keyTuple keys r = t)) =
        rows.filter (fun r => decide (keyTuple keys r = t))) ∧
    (∀ (k : Nat) (rows : List Row),
      List.Pairwise (fun r1 r2 => keyCell r1 k = none → keyCell r2 k = none)
        (sort_rows [k] rows)) ∧
    sort_rows [0, 1]
        [[some (chars ("B")), some (chars ("R2"))],
          [some (chars ("A")), some (chars ("R1"))],
          [some (chars ("A")), some (chars ("R3"))]] =
      [[some (chars ("A")), some (chars ("R1"))],
        [some (chars ("A")), some (chars ("R3"))],
        [some (chars ("B")), some (chars ("R2"))]] := by
  refine ⟨?_, ?_, ?_, ?_, by decide⟩
  · intro keys rows
    exact insSort_perm _ rows
  · intro keys rows
    exact pairwise_insSort _ (leRow_trans keys) (leRow_total keys) rows
  · intro keys rows t
    apply filter_insSort
    intro x y hx hy
    apply keyTuple_eq_leRow
    rw [of_decide_eq_true hx, of_decide_eq_true hy]
  · intro k rows
    have hp := pairwise_insSort (leRow [k]) (leRow_trans [k]) (leRow_total [k])
      rows
    refine List.Pairwise.imp ?_ hp
    intro r1 r2 h12 hnone
    rw [leRow] at h12
    by_cases heq : keyCell r1 k = keyCell r2 k
    · rw [← heq]
      exact hnone
    · rw [if_neg heq, hnone] at h12
      cases hc : keyCell r2 k with
      | none => rfl
      | some s =>
        rw [hc] at h12
        simp [leCell] at h12

/-- C4: the classifier is total — `None`-equivalent (non-string) and
blank-after-trim inputs map to the unknown label; otherwise the trimmed
segment before the first `/` is looked up exactly, then by its
capitalized-first-letter variant (Python `str.capitalize`), else the unknown
label is returned; the result is always either the unknown label or a label
stored in the lookup. -/
theorem classifier_total_and_lookup :
    (∀ (cat_map : List (Str × Str)) (unknown : Str),
      compute_category_cn none cat_map unknown = unknown) ∧
    (∀ (c : Str) (cat_map : List (Str × Str)) (unknown : Str), strip c = [] →
      compute_category_cn (some c) cat_map unknown = unknown) ∧
    (∀ (c : Str) (cat_map : List (Str × Str)) (unknown : Str), strip c ≠ [] →
      compute_category_cn (some c) cat_map unknown =
        (pyGet cat_map (strip (splitTop c))).getD
          ((pyGet cat_map (pyCapitalize (strip (splitTop c)))).getD unknown)) ∧
    (∀ (category : Option Str) (cat_map : List (Str × Str)) (unknown : Str),
      compute_category_cn category cat_map unknown = unknown ∨
        ∃ p ∈ cat_map, compute_category_cn category cat_map unknown = p.2) := by
  refine ⟨fun _ _ => rfl, ?_, ?_, ?_⟩
  · intro c m u h
    simp [compute_category_cn, h]
  · intro c m u h
    simp only [compute_category_cn, if_neg h]
    cases h1 : pyGet m (strip (splitTop c)) with
    | some v => simp [h1]
    | none =>
      cases h2 : pyGet m (pyCapitalize (strip (splitTop c))) with
      | some v => simp [h1, h2]
      | none => simp [h1, h2]
  · intro cat m u
    cases cat with
    | none => left; rfl
    | some c =>
      by_cases h : strip c = []
      · left
        simp [compute_category_cn, h]
      · simp only [compute_category_cn, if_neg h]
        cases h1 : pyGet m (strip (splitTop c)) with
        | some v =>
          right
          exact ⟨(strip (splitTop c), v), pyGet_mem h1, rfl⟩
        | none =>
          cases h2 : pyGet m (pyCapitalize (strip (splitTop c))) with
          | some v =>
            right
            exact ⟨(pyCapitalize (strip (splitTop c)), v), pyGet_mem h2, rfl⟩
          | none => left; rfl

theorem classifier_total_and_lookup_witness :
    strip (chars ("Capacitor/Ceramic")) ≠ [] ∧
      compute_category_cn (some (chars ("Capacitor/Ceramic")))
          [(chars ("Capacitor"), chars ("电容"))] (chars ("Unknown")) =
        (pyGet [(chars ("Capacitor"), chars ("电容"))]
            (strip (splitTop (chars ("Capacitor/Ceramic"))))).getD
          ((pyGet [(chars ("Capacitor"), chars ("电容"))]
              (pyCapitalize (strip (splitTop (chars ("Capacitor/Ceramic")))))).getD
            (chars ("Unknown"))) :=
  ⟨by decide, classifier_total_and_lookup.2.2.1 _ _ _ (by decide)⟩

/-- C5: the merge pass over the leading classification column produces
exactly the maximal runs of consecutive equal values (one `(start, end,
value)` range per run, data rows starting at spreadsheet row 2), the run
lengths cover all data rows, adjacent runs carry distinct values (so two
non-adjacent runs with the same value are never merged together), and the
column `[A, A, B, A]` yields ranges `(2, 3, A)`, `(4, 4, B)`, `(5, 5, A)`. -/
theorem merge_ranges_maximal_runs :
    (∀ col : List Str, merge_ranges col = spec_merge_ranges col) ∧
    (∀ col : List Str, ((spec_runs col).map (fun p => p.2)).sum = col.length) ∧
    (∀ col : List Str, List.Chain' (fun a b => a.1 ≠ b.1) (spec_runs col)) ∧
    merge_ranges [chars ("A"), chars ("A"), chars ("B"), chars ("A")] =
      [(2, 3, chars ("A")), (4, 4, chars ("B")), (5, 5, chars ("A"))] :=
  ⟨merge_ranges_eq_spec, spec_runs_sum, spec_runs_chain, by decide⟩

/-- C6 counterexample: with input `Reference = [R1]` (one row), the mapping
`[位号 ← Missing1, 数量 ← Reference]` has its first source absent: pandas
creates a zero-row column for it and the later Series assignment
re-establishes the index, refilling that column with NaN — not the empty
string the claim asserts.  With the mapping `[位号 ← Missing1]` alone, no
Series assignment ever establishes an index and the output column keeps
zero rows, not the input's one row. -/
theorem projection_empty_fill_counterexample :
    project [(chars ("位号"), chars ("Missing1")),
        (chars ("数量"), chars ("Reference"))]
        [(chars ("Reference"), [Cell.text (chars ("R1"))])] 1 =
      [(chars ("位号"), [Cell.missing]),
        (chars ("数量"), [Cell.text (chars ("R1"))])] ∧
    ([Cell.missing] : List Cell) ≠ [Cell.text []] ∧
    project [(chars ("位号"), chars ("Missing1"))]
        [(chars ("Reference"), [Cell.text (chars ("R1"))])] 1 =
      [(chars ("位号"), ([] : List Cell))] ∧
    ([] : List Cell).length ≠ 1 := by
  refine ⟨by decide, by decide, by decide, by decide⟩

/-- C6 amended: projection produces one output column per mapping entry in
mapping iteration order, and equals the staged description: absent-source
entries before the first present-source entry are filled with the missing
value (NaN) for every row — or keep zero rows when no present source exists
at all — while absent-source entries from the first present-source entry on
are filled with the empty string for every row.  Consequently, when at
least one mapping source is a column of the table the projected table has
exactly as many rows as the input table, and when none is, every output
column has zero rows. -/
theorem projection_pandas_semantics :
    (∀ (out_map : List (Str × Str)) (df : List (Str × List Cell)) (n : Nat),
      project out_map df n = spec_project df n out_map) ∧
    (∀ (out_map : List (Str × Str)) (df : List (Str × List Cell)) (n : Nat),
      (project out_map df n).map Prod.fst = out_map.map Prod.fst) ∧
    (∀ (out_map : List (Str × Str)) (df : List (Str × List Cell)) (n : Nat),
      (∀ c ∈ df, c.2.length = n) →
      out_map.all (fun p => (lookupCol df p.2).isNone) = false →
      ∀ q ∈ project out_map df n, q.2.length = n) ∧
    (∀ (out_map : List (Str × Str)) (df : List (Str × List Cell)) (n : Nat),
      out_map.all (fun p => (lookupCol df p.2).isNone) = true →
      ∀ q ∈ project out_map df n, q.2 = ([] : List Cell)) := by
  refine ⟨project_eq_spec, ?_, ?_, ?_⟩
  · intro out_map df n
    rw [project_eq_spec]
    exact spec_project_fst df n out_map
  · intro out_map df n hwf hsome q hq
    rw [project_eq_spec] at hq
    exact spec_project_length df n out_map hwf hsome q hq
  · intro out_map df n hnone q hq
    rw [project_eq_spec] at hq
    exact spec_project_all_absent df n out_map hnone q hq

theorem projection_pandas_semantics_witness :
    (∀ c ∈ wDf, c.2.length = 1) ∧
      wOutMap.all (fun p => (lookupCol wDf p.2).isNone) = false ∧
      ∀ q ∈ project wOutMap wDf 1, q.2.length = 1 :=
  ⟨by decide, by decide,
    projection_pandas_semantics.2.2.1 wOutMap wDf 1 (by decide) (by decide)⟩

/-- C7 counterexample: for the header `规格和型号` (five non-ASCII
characters) over the single cell `"AB"`, the code seeds the maximum with the
plain character count 5 of the header and yields width 7, while the claim's
weighted-header rule would give 12. -/
theorem header_width_unweighted_counterexample :
    column_width (chars ("规格和型号")) [chars ("AB")] ≠
      claimed_column_width (chars ("规格和型号")) [chars ("AB")] := by
  decide

/-- C7 amended: the reference and quantity columns get the two fixed widths
31.1 and 13.13 regardless of content; every other column gets
`min(max_content + 2, 100)` where cells are measured with the two-unit
weighting for non-ASCII characters but the header contributes its plain
character count (one unit per character, ASCII or not). -/
theorem column_width_amended :
    (∀ (header : Str) (cells : List Str),
      column_width header cells = amended_column_width header cells) ∧
    (∀ cells : List Str, column_width (chars ("位号")) cells = 31.1) ∧
    (∀ cells : List Str, column_width (chars ("数量")) cells = 13.13) := by
  refine ⟨?_, ?_, ?_⟩
  · intro header cells
    by_cases h1 : header = chars ("位号")
    · simp [column_width, amended_column_width, h1]
    · by_cases h2 : header = chars ("数量")
      · simp [column_width, amended_column_width, h1, h2]
      · simp only [column_width, amended_column_width, if_neg h1, if_neg h2]
        rw [col_max_length, foldl_max_eq cell_display_width cells header.length]
        rfl
  · intro cells
    rw [column_width, if_pos rfl]
  · intro cells
    rw [column_width, if_neg (by decide), if_pos rfl]

/-- C8: the report summary lists per-kind counts in descending order of
count, and the number of blocks in the detail section equals the sum of the
summary counts, for any ledger contents and any localized label map. -/
theorem report_count_conservation (issues : List Issue)
    (cn : IssueKind → Str) :
    sumCounts (issue_summary issues) = (report_detail cn issues).length ∧
    List.Pairwise (fun a b => b.2 ≤ a.2) (issue_summary issues) := by
  constructor
  · rw [issue_summary, sumCounts_insSort, sumCounts_tallyAux]
    simp [report_detail, sumCounts]
  · have htrans : ∀ x y z : IssueKind × Nat,
        leCount x y = true → leCount y z = true → leCount x z = true := by
      intro x y z hxy hyz
      simp only [leCount, decide_eq_true_eq] at hxy hyz ⊢
      omega
    have htot : ∀ x y : IssueKind × Nat,
        leCount x y = true ∨ leCount y x = true := by
      intro x y
      simp only [leCount, decide_eq_true_eq]
      omega
    have hp := pairwise_insSort leCount htrans htot
      (tallyAux (issues.map fun i => i.kind) [])
    refine List.Pairwise.imp ?_ hp
    intro a b hab
    simpa [leCount] using hab

/-- C9: the exit status depends only on environment failures — a decoded
run returns 0 regardless of the issue ledger, while a missing input file
(status 2) and an undecodable file (status 3) abort with distinct non-zero
statuses. -/
theorem exit_status_env_only :
    (∀ issues : List Issue, main_status (InputState.decoded issues) = 0) ∧
    main_status InputState.missingFile = 2 ∧
    main_status InputState.undecodable = 3 ∧
    main_status InputState.missingFile ≠ 0 ∧
    main_status InputState.undecodable ≠ 0 ∧
    main_status InputState.missingFile ≠ main_status InputState.undecodable :=
  ⟨fun _ => rfl, rfl, rfl, by decide, by decide, by decide⟩

/-- C10: a missing quantity cell is returned unchanged with no issue; a
present string value is converted when `int(float(-))` succeeds, and
otherwise kept unchanged while one `InvalidQty` issue is recorded with a
blank reference and the raw value carried in the issue's description
field. -/
theorem qty_normalization_behavior :
    to_int_or_keep Cell.missing = (Cell.missing, []) ∧
    (∀ (v : Str) (n : Int), parseQtyInt (strip v) = some n →
      to_int_or_keep (Cell.text v) = (Cell.num n, [])) ∧
    (∀ v : Str, parseQtyInt (strip v) = none →
      to_int_or_keep (Cell.text v) = (Cell.text v, [invalidQtyIssue v]) ∧
        (invalidQtyIssue v).reference = [] ∧
        (invalidQtyIssue v).desc = v ∧
        (invalidQtyIssue v).kind = IssueKind.InvalidQty) := by
  refine ⟨rfl, ?_, ?_⟩
  · intro v n h
    simp [to_int_or_keep, h]
  · intro v h
    exact ⟨by simp [to_int_or_keep, h], rfl, rfl, rfl⟩

theorem qty_normalization_behavior_witness :
    parseQtyInt (strip (chars ("abc"))) = none ∧
      to_int_or_keep (Cell.text (chars ("abc"))) =
        (Cell.text (chars ("abc")), [invalidQtyIssue (chars ("abc"))]) :=
  ⟨by decide, (qty_normalization_behavior.2.2 (chars ("abc")) (by decide)).1⟩

end BomTransform
